import Mathlib

/-!
Shallow embedding of the Gutenberg word counter (`Final_Project.py`): the
text analyzer (`clean_text`, `count_top_10`), the HTML pre-processing and
title extraction performed by `fetch_url`, and the SQLite-backed book store
(`save_to_db`, `search_local`, `search_title`), together with theorems
checking the specified behaviour.

Modelling conventions:
- Python strings are Lean `String`s; character-level work happens on
  `List Char`.
- Python's stable `list.sort(key=..., reverse=True)` is modelled by the
  stable `List.mergeSort` with the corresponding descending comparison.
- Python's insertion-ordered `dict` is modelled by an association list in
  which new keys are appended at the end and existing keys keep their
  position.
- The SQLite database is a pair of row lists (`Books`, `Words`); SQLite's
  `LOWER` is ASCII-only lowercasing; the `TEXT PRIMARY KEY` on `Books`
  compares titles byte-for-byte (case-sensitively).
- Character classes follow Python's Unicode-aware `\s` / `str.split()` /
  `str.strip()` whitespace set; lowercasing is modelled by `Char.toLower`,
  which agrees with Python on the ASCII range (the only range the claims
  exercise, and the only characters surviving `clean_text`'s filter).
-/

namespace GWC

/-- Whitespace as recognised by Python's `\s`, `str.split()` and
`str.strip()`: the six ASCII whitespace characters plus the Unicode
whitespace code points. -/
def pyWs (c : Char) : Bool :=
  c = ' ' || c = '\t' || c = '\n' || c = '\x0d' || c = '\x0b' || c = '\x0c' ||
  c = '\x1c' || c = '\x1d' || c = '\x1e' || c = '\x1f' || c = '\x85' ||
  c = '\xa0' || c = ' ' ||
  (' ' ≤ c && c ≤ ' ') ||
  c = ' ' || c = ' ' || c = ' ' || c = ' ' || c = '　'

/-- ASCII letter, the class `[a-zA-Z]` of `clean_text`'s regex. -/
def asciiLetter (c : Char) : Bool :=
  ('a' ≤ c && c ≤ 'z') || ('A' ≤ c && c ≤ 'Z')

/-- A character survives `re.sub(r'[^a-zA-Z\s]', '', text)` iff it is an
ASCII letter or whitespace. -/
def keepChar (c : Char) : Bool :=
  asciiLetter c || pyWs c

/-- One step of whitespace splitting, consumed by `List.foldr`: the state is
(characters of the token currently being built, tokens already finished). -/
def splitWsStep (c : Char) (acc : List Char × List (List Char)) :
    List Char × List (List Char) :=
  if pyWs c then
    ([], if acc.1 = [] then acc.2 else acc.1 :: acc.2)
  else
    (c :: acc.1, acc.2)

def splitWsGo (cs : List Char) : List Char × List (List Char) :=
  cs.foldr splitWsStep ([], [])

/-- Python's `str.split()` with no argument: split on runs of whitespace,
discarding empty tokens. -/
def splitWs (cs : List Char) : List (List Char) :=
  let acc := splitWsGo cs
  if acc.1 = [] then acc.2 else acc.1 :: acc.2

/-- Model of `clean_text` (`Final_Project.py` lines 26–33): delete every character
that is not an ASCII letter or whitespace, lowercase, split on whitespace. -/
def clean_text (text : String) : List String :=
  (splitWs (((text.toList.filter keepChar).map Char.toLower))).map
    fun cs => String.mk cs

/-- One step of the counting loop of `count_top_10`: an insertion-ordered
dictionary update (`counts[word] += 1` / `counts[word] = 1`). -/
def bump (acc : List (String × Nat)) (w : String) : List (String × Nat) :=
  if w ∈ acc.map Prod.fst then
    acc.map fun p => if p.1 = w then (p.1, p.2 + 1) else p
  else
    acc ++ [(w, 1)]

/-- The `counts` dictionary of `count_top_10` as an insertion-ordered
association list (`list(counts.items())`). -/
def countsFold (words : List String) : List (String × Nat) :=
  words.foldl bump []

/-- Model of `count_top_10` (`Final_Project.py` lines 35–56): keep words of length
≥ 4, count occurrences into an insertion-ordered dict, stably sort the
(word, frequency) pairs by descending frequency, take the first 10. -/
def count_top_10 (words : List String) : List (String × Nat) :=
  (List.mergeSort (countsFold (words.filter fun w => 4 ≤ w.length))
    (fun a b => Nat.ble b.2 a.2)).take 10

/-- Spec-side helper: the distinct elements of a list in first-occurrence
order (the key order of an insertion-ordered dictionary). -/
def firstOccurs (l : List String) : List String :=
  l.foldl (fun acc w => if w ∈ acc then acc else acc ++ [w]) []

/-! ### HTML pre-processing of `fetch_url` (lines 121–135) -/

/-- Scan for the first `>`; on success return the characters after it.
Models the run `[^>]*>` continuing a tag match. -/
def findTagEnd : List Char → Option (List Char)
  | [] => none
  | c :: cs => if c = '>' then some cs else findTagEnd cs

/-- Given the characters after a `<`, decide whether `[^>]+>` matches here
(at least one non-`>` character, then the first `>`); on success return the
remainder after the closing `>`. -/
def tagRest : List Char → Option (List Char)
  | [] => none
  | c :: cs => if c = '>' then none else findTagEnd cs

/-- Model of `re.sub(r'<[^>]+>', ' ', text)` (line 132), fuel-indexed: replace every
angle-bracket tag with a single space, scanning left to right.  A `<` with
no matching tag is kept verbatim.  The fuel (an upper bound on the length)
only makes the recursion structural; `stripTags` supplies enough. -/
def stripTagsF : Nat → List Char → List Char
  | 0, cs => cs
  | _ + 1, [] => []
  | f + 1, c :: cs =>
    if c = '<' then
      match tagRest cs with
      | some rest => ' ' :: stripTagsF f rest
      | none => '<' :: stripTagsF f cs
    else c :: stripTagsF f cs

/-- Tag removal `re.sub(r'<[^>]+>', ' ', text)` on a character list. -/
def stripTags (cs : List Char) : List Char :=
  stripTagsF cs.length cs

/-- Python's `sub in s`: does `pat` occur contiguously in `cs`? -/
def containsSub (pat : List Char) : List Char → Bool
  | [] => pat.isPrefixOf []
  | c :: cs => pat.isPrefixOf (c :: cs) || containsSub pat cs

/-- The HTML check `"<html" in text.lower()` (line 122). -/
def isHtmlText (text : String) : Bool :=
  containsSub "<html".toList (text.toList.map Char.toLower)

/-- The composite normalization pipeline applied by `fetch_url` before
ranking: strip tags when the document looks like HTML (lines 122–132), then
`clean_text` (line 135). -/
def normalize (text : String) : List String :=
  clean_text
    (if isHtmlText text then String.mk (stripTags text.toList) else text)

/-! ### Title extraction and resolution of `fetch_url` (lines 101–148) -/

/-- Case-insensitive literal match: if `lit` (given in lowercase) is a
prefix of `cs` up to `Char.toLower`, return the remainder. -/
def matchCI (lit : List Char) (cs : List Char) : Option (List Char) :=
  match lit, cs with
  | [], cs => some cs
  | _ :: _, [] => none
  | p :: ps, c :: cs => if c.toLower = p then matchCI ps cs else none

/-- The lazy group `(.*?)</p>` of the title regex: capture the shortest run
of non-newline characters followed by a (case-insensitive) `</p>`. -/
def lazyCapture : List Char → Option (List Char × List Char)
  | [] => none
  | c :: cs =>
    match matchCI "</p>".toList (c :: cs) with
    | some rest => some ([], rest)
    | none =>
      if c = '\n' then none
      else (lazyCapture cs).map fun p => (c :: p.1, p.2)

/-- The greedy `\s*` immediately before the lazy group, with backtracking:
try dropping `i` whitespace characters (largest first) and capturing from
there. -/
def wsThenCapture : Nat → List Char → Option (List Char)
  | 0, cs => (lazyCapture cs).map Prod.fst
  | i + 1, cs =>
    match lazyCapture (cs.drop (i + 1)) with
    | some p => some p.1
    | none => wsThenCapture i cs

/-- Attempt the pattern `<strong>\s*Title\s*</strong>\s*:\s*(.*?)</p>`
(with `re.IGNORECASE`) at the current position; on success return the
captured group. The `\s*` runs before `Title`, `</strong>` and `:` allow no
backtracking because the following literal is never whitespace. -/
def matchTitleAt (cs : List Char) : Option (List Char) := do
  let r ← matchCI "<strong>".toList cs
  let r ← matchCI "title".toList (r.dropWhile pyWs)
  let r ← matchCI "</strong>".toList (r.dropWhile pyWs)
  let r ← matchCI ":".toList (r.dropWhile pyWs)
  wsThenCapture (r.takeWhile pyWs).length r

/-- Model of `re.search` for the title pattern: try every start position from the
left, returning the first (leftmost) match's captured group. -/
def searchTitle : List Char → Option (List Char)
  | [] => matchTitleAt []
  | c :: cs =>
    match matchTitleAt (c :: cs) with
    | some cap => some cap
    | none => searchTitle cs

/-- Python's `str.strip()`: trim whitespace from both ends. -/
def stripChars (cs : List Char) : List Char :=
  ((cs.dropWhile pyWs).reverse.dropWhile pyWs).reverse

/-- Python's `s.split(sep)` with an explicit one-character separator:
splits at every occurrence, keeping empty pieces. -/
def splitOnChar (sep : Char) (cs : List Char) : List (List Char) :=
  cs.foldr
    (fun c acc =>
      match acc with
      | [] => [[c]]
      | t :: ts => if c = sep then [] :: t :: ts else (c :: t) :: ts)
    [[]]

/-- The URL fallback `url.split("/")[-1]` (line 140): the final path segment. -/
def lastSegment (url : String) : String :=
  String.mk ((splitOnChar '/' url.toList).getLastD [])

/-- Title resolution of `fetch_url`: the user-supplied hint (already
stripped, line 107) wins; otherwise for HTML documents the trimmed captured
group of the title regex (lines 127–129); otherwise the final path segment
of the URL (lines 138–140). -/
def resolveTitle (hint : String) (url : String) (text : String) : String :=
  let title := hint
  let title :=
    if isHtmlText text then
      match searchTitle text.toList with
      | some cap => if title = "" then String.mk (stripChars cap) else title
      | none => title
    else title
  if title = "" then lastSegment url else title

/-! ### The SQLite book store (lines 16–22, 58–76) -/

/-- SQLite's `LOWER`: ASCII-only lowercasing. -/
def sqliteLower (s : String) : String :=
  String.mk (s.toList.map fun c =>
    if 'A' ≤ c ∧ c ≤ 'Z' then Char.toLower c else c)

/-- The database state: the `Books(title)` table (title is a `TEXT PRIMARY
KEY`, compared byte-for-byte) and the `Words(title, word, frequency)` table
in row-insertion order. -/
structure DB where
  books : List String
  words : List (String × String × Nat)
deriving DecidableEq

def DB.empty : DB := ⟨[], []⟩

/-- Model of `save_to_db` (lines 58–68): insert the title into `Books` and one row
per (word, frequency) pair into `Words`; on a primary-key conflict
(`sqlite3.IntegrityError`, i.e. the exact title is already present) nothing
is inserted and the error is reported. Returns the new state and whether
the conflict branch was taken. -/
def save_to_db (db : DB) (title : String) (top_words : List (String × Nat)) :
    DB × Bool :=
  if title ∈ db.books then
    (db, true)
  else
    (⟨db.books ++ [title],
      db.words ++ top_words.map fun p => (title, p.1, p.2)⟩, false)

/-- Model of `search_local` (lines 70–76): select the (word, frequency) rows whose
title matches case-insensitively, ordered by frequency descending. -/
def search_local (db : DB) (title : String) : List (String × Nat) :=
  List.mergeSort
    ((db.words.filter fun r => sqliteLower r.1 = sqliteLower title).map
      fun r => (r.2.1, r.2.2))
    (fun a b => Nat.ble b.2 a.2)

/-- The outcome of a lookup as discriminated by `search_title`
(lines 90–97): an empty row list is reported as not found. -/
inductive SearchResult where
  | notFound : SearchResult
  | found : List (String × Nat) → SearchResult
deriving DecidableEq

/-- The lookup path of `search_title`: run `search_local` and report
`NotFound` exactly when the result row list is empty (`if result:`). -/
def searchOutcome (db : DB) (title : String) : SearchResult :=
  let r := search_local db title
  if r = [] then .notFound else .found r

/-- Spec-side helper for the idempotence property: join character-level
tokens with single spaces, as Python's `" ".join(tokens)` would. -/
def joinWith : List (List Char) → List Char
  | [] => []
  | t :: ts =>
    match ts with
    | [] => t
    | _ :: _ => t ++ ' ' :: joinWith ts

/-- Spec-side helper: rejoin string tokens with single spaces. -/
def spaceJoin (toks : List String) : String :=
  String.mk (joinWith (toks.map String.toList))

end GWC

unseal List.merge List.mergeSort

namespace GWC

example : clean_text "Hello, world! Don2t." = ["hello", "world", "dont"] := by
  decide

example :
    count_top_10 ["bbbb", "aaaa", "bbbb"] = [("bbbb", 2), ("aaaa", 1)] := by
  decide

example : count_top_10 ["ab", "abcd"] = [("abcd", 1)] := by decide

example : firstOccurs ["b", "a", "b"] = ["b", "a"] := by decide

end GWC

namespace GWC

/-! ### Lemmas about `firstOccurs` and `countsFold` -/

theorem mem_foldl_ins (l : List String) :
    ∀ (acc : List String) (x : String),
      x ∈ l.foldl (fun acc w => if w ∈ acc then acc else acc ++ [w]) acc ↔
        x ∈ acc ∨ x ∈ l := by
  induction l with
  | nil => simp
  | cons w l ih =>
    intro acc x
    simp only [List.foldl_cons]
    rw [ih]
    by_cases hw : w ∈ acc
    · simp only [if_pos hw, List.mem_cons]
      constructor
      · rintro (h | h)
        · exact Or.inl h
        · exact Or.inr (Or.inr h)
      · rintro (h | h | h)
        · exact Or.inl h
        · exact Or.inl (h ▸ hw)
        · exact Or.inr h
    · simp only [if_neg hw, List.mem_append, List.mem_singleton, List.mem_cons]
      tauto

theorem mem_firstOccurs {l : List String} {x : String} :
    x ∈ firstOccurs l ↔ x ∈ l := by
  rw [firstOccurs, mem_foldl_ins]
  simp

theorem nodup_foldl_ins (l : List String) :
    ∀ acc : List String, acc.Nodup →
      (l.foldl (fun acc w => if w ∈ acc then acc else acc ++ [w]) acc).Nodup := by
  induction l with
  | nil => intro acc h; simpa using h
  | cons w l ih =>
    intro acc h
    simp only [List.foldl_cons]
    apply ih
    by_cases hw : w ∈ acc
    · simpa [hw] using h
    · simp [hw, List.nodup_append, h]

theorem nodup_firstOccurs (l : List String) : (firstOccurs l).Nodup :=
  nodup_foldl_ins l [] List.nodup_nil

theorem firstOccurs_append (l : List String) (w : String) :
    firstOccurs (l ++ [w]) =
      if w ∈ firstOccurs l then firstOccurs l else firstOccurs l ++ [w] := by
  simp [firstOccurs, List.foldl_append]

theorem countsFold_append (l : List String) (w : String) :
    countsFold (l ++ [w]) = bump (countsFold l) w := by
  simp [countsFold, List.foldl_append]

/-- The `counts` dictionary built by the loop of `count_top_10` is exactly:
the distinct words in first-occurrence order, each paired with its number
of occurrences. -/
theorem countsFold_eq (l : List String) :
    countsFold l = (firstOccurs l).map fun w => (w, l.count w) := by
  induction l using List.reverseRecOn with
  | nil => rfl
  | append_singleton l w ih =>
    rw [countsFold_append, ih, firstOccurs_append, bump]
    have hkeys :
        ((firstOccurs l).map (fun w => (w, l.count w))).map Prod.fst =
          firstOccurs l := by
      rw [List.map_map]; exact List.map_id _
    by_cases hw : w ∈ firstOccurs l
    · rw [if_pos (by rw [hkeys]; exact hw), if_pos hw, List.map_map]
      apply List.map_congr_left
      intro w' _
      simp only [Function.comp_apply]
      by_cases hww : w' = w
      · subst hww; simp
      · simp [hww, Ne.symm hww]
    · rw [if_neg (fun h => hw (hkeys ▸ h)), if_neg hw, List.map_append]
      have hw' : w ∉ l := fun h => hw (mem_firstOccurs.mpr h)
      congr 1
      · apply List.map_congr_left
        intro w' hw''
        have : w' ≠ w := fun h =>
          hw' (h ▸ mem_firstOccurs.mp hw'')
        simp [this, Ne.symm this]
      · simp [List.count_eq_zero_of_not_mem hw']

theorem descBle_trans (a b c : String × Nat)
    (h₁ : Nat.ble b.2 a.2 = true) (h₂ : Nat.ble c.2 b.2 = true) :
    Nat.ble c.2 a.2 = true := by
  simp only [Nat.ble_eq] at *
  omega

theorem descBle_total (a b : String × Nat) :
    (Nat.ble b.2 a.2 || Nat.ble a.2 b.2) = true := by
  simp only [Bool.or_eq_true, Nat.ble_eq]
  omega

end GWC

namespace GWC

theorem countsFold_keys (l : List String) :
    (countsFold l).map Prod.fst = firstOccurs l := by
  rw [countsFold_eq, List.map_map]
  exact List.map_id _

theorem mergeSort_desc_sorted (l : List (String × Nat)) :
    (List.mergeSort l fun a b => Nat.ble b.2 a.2).Pairwise
      fun a b : String × Nat => b.2 ≤ a.2 :=
  (List.sorted_mergeSort descBle_trans descBle_total l).imp
    (by simp [Nat.ble_eq])

/-- **C1**: `count_top_10` returns exactly the (token, count) pairs of the
distinct tokens of length ≥ 4 — counts being occurrence counts in the
filtered sequence — built in first-occurrence order, stably sorted
descending by count (equal counts keep first-occurrence order) and
truncated to 10 pairs; `["bbbb","aaaa","bbbb"]` ranks as specified, and an
input with no qualifying token yields the empty ranking. -/
theorem count_top_10_spec :
    (∀ words : List String,
      count_top_10 words =
        (List.mergeSort
          ((firstOccurs (words.filter fun w => 4 ≤ w.length)).map fun w =>
            (w, (words.filter fun w' => 4 ≤ w'.length).count w))
          (fun a b => Nat.ble b.2 a.2)).take 10) ∧
    (∀ (words : List String) (a b : String × Nat),
      List.Sublist [a, b] (countsFold (words.filter fun w => 4 ≤ w.length)) →
      a.2 = b.2 →
      List.Sublist [a, b]
        (List.mergeSort (countsFold (words.filter fun w => 4 ≤ w.length))
          (fun a b => Nat.ble b.2 a.2))) ∧
    (∀ words : List String, (∀ w ∈ words, w.length < 4) →
      count_top_10 words = []) ∧
    count_top_10 ["bbbb", "aaaa", "bbbb"] = [("bbbb", 2), ("aaaa", 1)] := by
  refine ⟨fun words => ?_, fun words a b hsub heq => ?_, fun words h => ?_,
    by decide⟩
  · rw [count_top_10, countsFold_eq]
  · exact List.pair_sublist_mergeSort descBle_trans descBle_total
      (by simp [Nat.ble_eq, heq]) hsub
  · have hfil : words.filter (fun w => 4 ≤ w.length) = [] := by
      simp only [List.filter_eq_nil_iff, decide_eq_true_eq]
      intro w hw
      have := h w hw
      omega
    simp [count_top_10, hfil, countsFold]

theorem count_top_10_spec_witness :
    List.Sublist [(("aaaa" : String), 1), (("bbbb" : String), 1)]
      (List.mergeSort (countsFold (["aaaa", "bbbb"].filter fun w => 4 ≤ w.length))
        (fun a b => Nat.ble b.2 a.2)) ∧
    count_top_10 ["ab"] = [] :=
  ⟨count_top_10_spec.2.1 ["aaaa", "bbbb"] ("aaaa", 1) ("bbbb", 1) (by decide) rfl,
   count_top_10_spec.2.2.1 ["ab"] (by decide)⟩

/-- **C2**: for every input, the ranking has at most 10 entries, no two
entries share a word, frequencies are non-increasing, every ranked word has
length ≥ 4, and `rank(["ab","abcd"]) = [("abcd",1)]`. -/
theorem count_top_10_invariants :
    (∀ words : List String,
      (count_top_10 words).length ≤ 10 ∧
      ((count_top_10 words).map Prod.fst).Nodup ∧
      (count_top_10 words).Pairwise (fun a b => b.2 ≤ a.2) ∧
      ∀ p ∈ count_top_10 words, 4 ≤ p.1.length) ∧
    count_top_10 ["ab", "abcd"] = [("abcd", 1)] := by
  refine ⟨fun words => ⟨?_, ?_, ?_, ?_⟩, by decide⟩
  · exact List.length_take_le _ _
  · refine List.Nodup.sublist ((List.take_sublist _ _).map Prod.fst) ?_
    refine ((List.mergeSort_perm (countsFold (words.filter fun w => 4 ≤ w.length))
      (fun a b => Nat.ble b.2 a.2)).map Prod.fst).nodup_iff.mpr ?_
    rw [countsFold_keys]
    exact nodup_firstOccurs _
  · exact List.Pairwise.sublist (List.take_sublist _ _) (mergeSort_desc_sorted _)
  · intro p hp
    have hp1 := List.take_subset _ _ hp
    rw [List.mem_mergeSort, countsFold_eq] at hp1
    obtain ⟨w, hw, rfl⟩ := List.mem_map.mp hp1
    have hw2 : w ∈ words.filter fun w => 4 ≤ w.length := mem_firstOccurs.mp hw
    simpa using (List.mem_filter.mp hw2).2

theorem count_top_10_invariants_witness :
    4 ≤ (("abcd" : String), 1).1.length :=
  (count_top_10_invariants.1 ["ab", "abcd"]).2.2.2 ("abcd", 1) (by decide)

end GWC

namespace GWC

/-! ### Book store theorems -/

/-- **C4**: `save_to_db` hits the conflict branch exactly when the same
title (case-sensitively) is already in `Books`; a rejected save leaves the
store unchanged, so every previously stored ranking is still retrievable;
saving `"Hamlet"` when only `"hamlet"` exists is accepted by storage. -/
theorem save_conflict_spec :
    (∀ (db : DB) (t : String) (rk : List (String × Nat)),
      (save_to_db db t rk).2 = true ↔ t ∈ db.books) ∧
    (∀ (db : DB) (t : String) (rk : List (String × Nat)),
      t ∈ db.books → (save_to_db db t rk).1 = db) ∧
    (∀ (db : DB) (t q : String) (rk : List (String × Nat)),
      t ∈ db.books →
      search_local (save_to_db db t rk).1 q = search_local db q) ∧
    (save_to_db ⟨["hamlet"], [("hamlet", "word", 1)]⟩ "Hamlet" [("x", 1)]).2
      = false := by
  refine ⟨fun db t rk => ?_, fun db t rk h => ?_, fun db t q rk h => ?_,
    by decide⟩
  · by_cases h : t ∈ db.books <;> simp [save_to_db, h]
  · simp [save_to_db, h]
  · simp [save_to_db, h]

theorem save_conflict_spec_witness :
    (save_to_db ⟨["hamlet"], [("hamlet", "word", 1)]⟩ "hamlet" [("y", 2)]).1
      = ⟨["hamlet"], [("hamlet", "word", 1)]⟩ ∧
    search_local
      (save_to_db ⟨["hamlet"], [("hamlet", "word", 1)]⟩ "hamlet" [("y", 2)]).1
      "hamlet" = search_local ⟨["hamlet"], [("hamlet", "word", 1)]⟩ "hamlet" :=
  ⟨save_conflict_spec.2.1 _ "hamlet" [("y", 2)] (by decide),
   save_conflict_spec.2.2.1 _ "hamlet" "hamlet" [("y", 2)] (by decide)⟩

/-- **C5**: after a successful save into a store holding no case-variant of
the title, loading any case-variant of the title returns exactly the saved
(word, frequency) pairs (as a multiset), ordered descending by frequency. -/
theorem save_load_roundtrip :
    ∀ (db : DB) (title t' : String) (rk : List (String × Nat)),
      title ∉ db.books →
      (∀ r ∈ db.words, sqliteLower r.1 ≠ sqliteLower title) →
      sqliteLower t' = sqliteLower title →
      List.Perm (search_local (save_to_db db title rk).1 t') rk ∧
      (search_local (save_to_db db title rk).1 t').Pairwise
        (fun a b => b.2 ≤ a.2) := by
  intro db title t' rk hnb hnw hvar
  have hdb : (save_to_db db title rk).1 =
      ⟨db.books ++ [title], db.words ++ rk.map fun p => (title, p.1, p.2)⟩ := by
    simp [save_to_db, hnb]
  have hfil : ((db.words ++ rk.map fun p => (title, p.1, p.2)).filter
      fun r => sqliteLower r.1 = sqliteLower t') =
      rk.map fun p => (title, p.1, p.2) := by
    rw [List.filter_append]
    have h1 : (db.words.filter fun r => sqliteLower r.1 = sqliteLower t') = [] := by
      simp only [List.filter_eq_nil_iff, decide_eq_true_eq]
      intro r hr
      rw [hvar]
      exact hnw r hr
    have h2 : ((rk.map fun p => (title, p.1, p.2)).filter
        fun r => sqliteLower r.1 = sqliteLower t') =
        rk.map fun p => (title, p.1, p.2) := by
      rw [List.filter_eq_self]
      intro r hr
      obtain ⟨p, _, rfl⟩ := List.mem_map.mp hr
      simp [hvar]
    rw [h1, h2, List.nil_append]
  have hmap : ((rk.map fun p => (title, p.1, p.2)).map
      fun r => (r.2.1, r.2.2)) = rk := by
    rw [List.map_map]
    exact List.map_id _
  rw [hdb]
  simp only [search_local]
  rw [hfil, hmap]
  exact ⟨List.mergeSort_perm _ _, mergeSort_desc_sorted _⟩

theorem save_load_roundtrip_witness :
    List.Perm
      (search_local (save_to_db DB.empty "Moby Dick"
        [("whale", 3), ("ship", 5)]).1 "moby dick")
      [("whale", 3), ("ship", 5)] ∧
    (search_local (save_to_db DB.empty "Moby Dick"
      [("whale", 3), ("ship", 5)]).1 "moby dick").Pairwise
      (fun a b => b.2 ≤ a.2) :=
  save_load_roundtrip DB.empty "Moby Dick" "moby dick"
    [("whale", 3), ("ship", 5)] (by decide) (by simp [DB.empty]) (by decide)

/-- **C6**: for a title with no stored rows, the lookup path reports the
distinguished `NotFound` outcome, a normal return value; a found outcome
never carries an empty row list. -/
theorem load_notFound_spec :
    (∀ (db : DB) (t : String),
      (∀ r ∈ db.words, sqliteLower r.1 ≠ sqliteLower t) →
      searchOutcome db t = .notFound) ∧
    (∀ (db : DB) (t : String), searchOutcome db t ≠ .found []) ∧
    searchOutcome DB.empty "Nonexistent Title" = .notFound := by
  refine ⟨fun db t h => ?_, fun db t => ?_, by decide⟩
  · have hfil : (db.words.filter fun r => sqliteLower r.1 = sqliteLower t)
        = [] := by
      simp only [List.filter_eq_nil_iff, decide_eq_true_eq]
      exact h
    simp [searchOutcome, search_local, hfil]
  · unfold searchOutcome
    by_cases hr : search_local db t = []
    · simp [hr]
    · simp [hr]

theorem load_notFound_spec_witness :
    searchOutcome ⟨["Other"], [("Other", "word", 2)]⟩ "Missing" = .notFound ∧
    searchOutcome DB.empty "x" ≠ .found [] :=
  ⟨load_notFound_spec.1 ⟨["Other"], [("Other", "word", 2)]⟩ "Missing"
    (by decide),
   load_notFound_spec.2.1 DB.empty "x"⟩

/-- **C9**: once two records whose titles differ only in ASCII letter case
are both saved, looking up either title returns the word rows of the two
records merged (as a multiset), sorted descending by frequency — the same
word can appear twice and neither ranking is retrievable in isolation. -/
theorem case_variant_merge_spec :
    (∀ (t1 t2 : String) (r1 r2 : List (String × Nat)),
      t1 ≠ t2 → sqliteLower t1 = sqliteLower t2 →
      search_local (save_to_db (save_to_db DB.empty t1 r1).1 t2 r2).1 t1 =
        search_local (save_to_db (save_to_db DB.empty t1 r1).1 t2 r2).1 t2 ∧
      List.Perm
        (search_local (save_to_db (save_to_db DB.empty t1 r1).1 t2 r2).1 t1)
        (r1 ++ r2) ∧
      (search_local
        (save_to_db (save_to_db DB.empty t1 r1).1 t2 r2).1 t1).length =
        r1.length + r2.length ∧
      (search_local
        (save_to_db (save_to_db DB.empty t1 r1).1 t2 r2).1 t1).Pairwise
        (fun a b => b.2 ≤ a.2)) ∧
    search_local
      (save_to_db (save_to_db DB.empty "Dracula" [("night", 3)]).1 "dracula"
        [("night", 5)]).1 "Dracula" = [("night", 5), ("night", 3)] := by
  refine ⟨fun t1 t2 r1 r2 hne hlow => ?_, by decide⟩
  have hdb : (save_to_db (save_to_db DB.empty t1 r1).1 t2 r2).1 =
      ⟨[t1, t2], (r1.map fun p => (t1, p.1, p.2)) ++
        r2.map fun p => (t2, p.1, p.2)⟩ := by
    have h1 : (save_to_db DB.empty t1 r1).1 =
        ⟨[t1], r1.map fun p => (t1, p.1, p.2)⟩ := by
      simp [save_to_db, DB.empty]
    rw [h1]
    simp [save_to_db, Ne.symm hne]
  have hfil : (((r1.map fun p => (t1, p.1, p.2)) ++
      r2.map fun p => (t2, p.1, p.2)).filter
        fun r => sqliteLower r.1 = sqliteLower t1) =
      (r1.map fun p => (t1, p.1, p.2)) ++ r2.map fun p => (t2, p.1, p.2) := by
    rw [List.filter_eq_self]
    intro r hr
    rcases List.mem_append.mp hr with hr1 | hr2
    · obtain ⟨p, _, rfl⟩ := List.mem_map.mp hr1
      simp
    · obtain ⟨p, _, rfl⟩ := List.mem_map.mp hr2
      simp [hlow]
  have hmap : (((r1.map fun p => (t1, p.1, p.2)) ++
      r2.map fun p => (t2, p.1, p.2)).map fun r => (r.2.1, r.2.2)) =
      r1 ++ r2 := by
    rw [List.map_append, List.map_map, List.map_map]
    rw [show ((fun r : String × String × Nat => (r.2.1, r.2.2)) ∘
      fun p : String × Nat => (t1, p.1, p.2)) = id from rfl]
    rw [show ((fun r : String × String × Nat => (r.2.1, r.2.2)) ∘
      fun p : String × Nat => (t2, p.1, p.2)) = id from rfl]
    rw [List.map_id, List.map_id]
  have hperm : List.Perm
      (search_local (save_to_db (save_to_db DB.empty t1 r1).1 t2 r2).1 t1)
      (r1 ++ r2) := by
    rw [hdb]
    simp only [search_local]
    rw [hfil, hmap]
    exact List.mergeSort_perm _ _
  refine ⟨?_, hperm, ?_, ?_⟩
  · rw [hdb]
    simp only [search_local]
    rw [hlow]
  · rw [hperm.length_eq, List.length_append]
  · rw [hdb]
    simp only [search_local]
    exact mergeSort_desc_sorted _

theorem case_variant_merge_spec_witness :
    List.Perm
      (search_local (save_to_db (save_to_db DB.empty "Dracula"
        [("night", 3)]).1 "dracula" [("blood", 5)]).1 "Dracula")
      ([("night", 3)] ++ [("blood", 5)]) :=
  ((case_variant_merge_spec.1 "Dracula" "dracula" [("night", 3)]
    [("blood", 5)] (by decide) (by decide)).2).1

/-- **C10**: a successful save of an empty ranking records the title in
`Books` but adds no word rows, so the lookup path returns the same empty
row list as for a never-saved title and reports `NotFound`. -/
theorem save_empty_ranking_spec :
    ∀ (db : DB) (t : String),
      t ∉ db.books →
      (∀ r ∈ db.words, sqliteLower r.1 ≠ sqliteLower t) →
      (save_to_db db t []).1.books = db.books ++ [t] ∧
      (save_to_db db t []).1.words = db.words ∧
      search_local (save_to_db db t []).1 t = [] ∧
      searchOutcome (save_to_db db t []).1 t = .notFound := by
  intro db t hnb hnw
  have hdb : (save_to_db db t []).1 = ⟨db.books ++ [t], db.words⟩ := by
    simp [save_to_db, hnb]
  have hfil : (db.words.filter fun r => sqliteLower r.1 = sqliteLower t)
      = [] := by
    simp only [List.filter_eq_nil_iff, decide_eq_true_eq]
    exact hnw
  have hsl : search_local (save_to_db db t []).1 t = [] := by
    rw [hdb]
    simp [search_local, hfil]
  exact ⟨by rw [hdb], by rw [hdb], hsl, by simp [searchOutcome, hsl]⟩

theorem save_empty_ranking_spec_witness :
    search_local
      (save_to_db ⟨["Other"], [("Other", "word", 2)]⟩ "Empty Book" []).1
      "Empty Book" = [] ∧
    searchOutcome
      (save_to_db ⟨["Other"], [("Other", "word", 2)]⟩ "Empty Book" []).1
      "Empty Book" = .notFound :=
  ⟨(save_empty_ranking_spec ⟨["Other"], [("Other", "word", 2)]⟩ "Empty Book"
      (by decide) (by decide)).2.2.1,
   (save_empty_ranking_spec ⟨["Other"], [("Other", "word", 2)]⟩ "Empty Book"
      (by decide) (by decide)).2.2.2⟩

end GWC

namespace GWC

/-- **C7**: title resolution follows the priority: a non-empty caller hint
wins; otherwise, for HTML content with a regex match, the captured group of
the unmodified HTML trimmed of surrounding whitespace (case and punctuation
preserved); otherwise the final path segment of the URL.  The concrete
conjuncts exhibit extraction preserving the apostrophe and capitals of
`Alice's Adventures`. -/
theorem title_resolution_spec :
    (∀ (hint url text : String), hint ≠ "" →
      resolveTitle hint url text = hint) ∧
    (∀ (url text : String) (cap : List Char),
      isHtmlText text = true → searchTitle text.toList = some cap →
      String.mk (stripChars cap) ≠ "" →
      resolveTitle "" url text = String.mk (stripChars cap)) ∧
    (∀ url text : String, isHtmlText text = false →
      resolveTitle "" url text = lastSegment url) ∧
    (∀ url text : String, isHtmlText text = true →
      searchTitle text.toList = none →
      resolveTitle "" url text = lastSegment url) ∧
    (searchTitle "<html><p><strong>Title</strong>: Alice's Adventures</p>".toList).map
      (fun c => String.mk (stripChars c)) = some "Alice's Adventures" ∧
    resolveTitle "" "https://x.org/files/11/11-h/11-h.htm"
      "<html><p><strong>Title</strong>: Alice's Adventures</p></html>" =
      "Alice's Adventures" := by
  refine ⟨fun hint url text hh => ?_, fun url text cap h1 h2 h3 => ?_,
    fun url text h1 => ?_, fun url text h1 h2 => ?_, by decide, by decide⟩
  · by_cases hhtml : isHtmlText text
    · cases hst : searchTitle text.data <;>
        simp [resolveTitle, hhtml, hst, hh]
    · simp [resolveTitle, hhtml, hh]
  · simp only [String.toList] at h2
    simp [resolveTitle, h1, h2, h3]
  · simp [resolveTitle, h1]
  · simp only [String.toList] at h2
    simp [resolveTitle, h1, h2]

theorem title_resolution_spec_witness :
    resolveTitle "The Hint" "http://a/b" "plain text" = "The Hint" ∧
    resolveTitle "" "http://a/b"
      "<html><strong>Title</strong>: Alice's Adventures</p>" =
      String.mk (stripChars "Alice's Adventures".toList) ∧
    resolveTitle "" "http://a/b" "plain text" = lastSegment "http://a/b" ∧
    resolveTitle "" "http://a/b" "<html><p>no match</p>" =
      lastSegment "http://a/b" :=
  ⟨title_resolution_spec.1 "The Hint" "http://a/b" "plain text" (by decide),
   title_resolution_spec.2.1 "http://a/b"
     "<html><strong>Title</strong>: Alice's Adventures</p>"
     "Alice's Adventures".toList (by decide) (by decide) (by decide),
   title_resolution_spec.2.2.1 "http://a/b" "plain text" (by decide),
   title_resolution_spec.2.2.2.1 "http://a/b" "<html><p>no match</p>"
     (by decide) (by decide)⟩

end GWC

namespace GWC

/-! ### Character-level lemmas -/

theorem char_le_iff_toNat {a b : Char} : a ≤ b ↔ a.toNat ≤ b.toNat := by
  simp [Char.le_def, UInt32.le_def, BitVec.le_def, Char.toNat, UInt32.toNat]

theorem toLower_eq_self {c : Char} (h : ¬(65 ≤ c.toNat ∧ c.toNat ≤ 90)) :
    c.toLower = c := by
  rw [Char.toLower]
  exact if_neg (fun hc => h ⟨hc.1, hc.2⟩)

theorem toLower_fix_of_lower_or_space {c : Char}
    (h : ('a' ≤ c ∧ c ≤ 'z') ∨ c = ' ') : c.toLower = c := by
  rcases h with ⟨h1, _⟩ | h2
  · have := char_le_iff_toNat.mp h1
    have h97 : 97 ≤ c.toNat := by simpa using this
    exact toLower_eq_self (by omega)
  · subst h2; decide

theorem keepChar_of_lower_or_space {c : Char}
    (h : ('a' ≤ c ∧ c ≤ 'z') ∨ c = ' ') : keepChar c = true := by
  rcases h with ⟨h1, h2⟩ | h2
  · simp [keepChar, asciiLetter, h1, h2]
  · subst h2; decide

set_option maxRecDepth 4096 in
theorem pyWs_bounded_toLower : ∀ n : Nat, n < 256 →
    pyWs (Char.ofNat n) = true → (Char.ofNat n).toLower = Char.ofNat n := by
  decide

theorem pyWs_toLower {c : Char} (h : pyWs c = true) : c.toLower = c := by
  by_cases hsmall : c.toNat < 256
  · have := pyWs_bounded_toLower c.toNat hsmall (by rwa [Char.ofNat_toNat])
    rwa [Char.ofNat_toNat] at this
  · exact toLower_eq_self (by omega)

theorem asciiLetter_bounded_toLower : ∀ n : Nat, n < 123 →
    asciiLetter (Char.ofNat n) = true →
    ('a' ≤ (Char.ofNat n).toLower ∧ (Char.ofNat n).toLower ≤ 'z') := by
  decide

theorem asciiLetter_toLower_lower {c : Char} (h : asciiLetter c = true) :
    'a' ≤ c.toLower ∧ c.toLower ≤ 'z' := by
  have hb : c.toNat < 123 := by
    simp only [asciiLetter, Bool.or_eq_true, Bool.and_eq_true,
      decide_eq_true_eq] at h
    rcases h with ⟨_, h2⟩ | ⟨_, h2⟩ <;>
      · have := char_le_iff_toNat.mp h2
        simp at this
        omega
  have := asciiLetter_bounded_toLower c.toNat hb (by rwa [Char.ofNat_toNat])
  rwa [Char.ofNat_toNat] at this

theorem containsSub_head_mem {p : Char} {ps cs : List Char}
    (h : containsSub (p :: ps) cs = true) : p ∈ cs := by
  induction cs with
  | nil => simp [containsSub, List.isPrefixOf] at h
  | cons c cs ih =>
    rw [containsSub, Bool.or_eq_true] at h
    rcases h with h | h
    · simp only [List.isPrefixOf, Bool.and_eq_true, beq_iff_eq] at h
      exact h.1 ▸ List.mem_cons_self c cs
    · exact List.mem_cons_of_mem c (ih h)

/-! ### Lemmas about whitespace splitting -/

theorem splitWsGo_cons (c : Char) (cs : List Char) :
    splitWsGo (c :: cs) = splitWsStep c (splitWsGo cs) := rfl

theorem splitWsGo_wsfree_append (t r : List Char)
    (ht : ∀ c ∈ t, pyWs c = false) :
    splitWsGo (t ++ r) = (t ++ (splitWsGo r).1, (splitWsGo r).2) := by
  induction t with
  | nil => simp
  | cons c t ih =>
    have hc : pyWs c = false := ht c (List.mem_cons_self c t)
    have ih' := ih fun c' hc' => ht c' (List.mem_cons_of_mem c hc')
    rw [List.cons_append, splitWsGo_cons, ih', splitWsStep]
    simp [hc]

theorem splitWsGo_ws_cons (c : Char) (cs : List Char) (hc : pyWs c = true) :
    splitWsGo (c :: cs) = ([], splitWs cs) := by
  rw [splitWsGo_cons, splitWsStep]
  simp [hc, splitWs]

theorem splitWs_wsfree (t : List Char) (hne : t ≠ [])
    (ht : ∀ c ∈ t, pyWs c = false) : splitWs t = [t] := by
  have hgo : splitWsGo t = (t, []) := by
    have := splitWsGo_wsfree_append t [] ht
    simpa [splitWsGo] using this
  simp [splitWs, hgo, hne]

theorem splitWs_token_cons (t r : List Char) (hne : t ≠ [])
    (ht : ∀ c ∈ t, pyWs c = false) :
    splitWs (t ++ ' ' :: r) = t :: splitWs r := by
  have hgo : splitWsGo (t ++ ' ' :: r) = (t, splitWs r) := by
    rw [splitWsGo_wsfree_append t (' ' :: r) ht,
      splitWsGo_ws_cons ' ' r (by decide)]
    simp
  simp [splitWs, hgo, hne]

theorem splitWs_joinWith (toks : List (List Char))
    (h : ∀ t ∈ toks, t ≠ [] ∧ ∀ c ∈ t, pyWs c = false) :
    splitWs (joinWith toks) = toks := by
  induction toks with
  | nil => rfl
  | cons t ts ih =>
    rcases h t (List.mem_cons_self t ts) with ⟨hne, hws⟩
    cases ts with
    | nil => exact splitWs_wsfree t hne hws
    | cons t' ts' =>
      rw [show joinWith (t :: t' :: ts') = t ++ ' ' :: joinWith (t' :: ts')
          from rfl,
        splitWs_token_cons t _ hne hws,
        ih fun u hu => h u (List.mem_cons_of_mem t hu)]

theorem splitWsGo_sound (cs : List Char) :
    (∀ c ∈ (splitWsGo cs).1, pyWs c = false ∧ c ∈ cs) ∧
    (∀ t ∈ (splitWsGo cs).2, t ≠ [] ∧ ∀ c ∈ t, pyWs c = false ∧ c ∈ cs) := by
  induction cs with
  | nil => simp [splitWsGo]
  | cons c cs ih =>
    rcases ih with ⟨ih1, ih2⟩
    rw [splitWsGo_cons, splitWsStep]
    by_cases hc : pyWs c = true
    · rw [if_pos hc]
      refine ⟨by simp, fun t ht => ?_⟩
      by_cases hcur : (splitWsGo cs).1 = []
      · rw [if_pos hcur] at ht
        exact ⟨(ih2 t ht).1, fun c' hc' =>
          ⟨((ih2 t ht).2 c' hc').1,
           List.mem_cons_of_mem c ((ih2 t ht).2 c' hc').2⟩⟩
      · rw [if_neg hcur] at ht
        rcases List.mem_cons.mp ht with h | h
        · subst h
          exact ⟨hcur, fun c' hc' =>
            ⟨(ih1 c' hc').1, List.mem_cons_of_mem c (ih1 c' hc').2⟩⟩
        · exact ⟨(ih2 t h).1, fun c' hc' =>
            ⟨((ih2 t h).2 c' hc').1,
             List.mem_cons_of_mem c ((ih2 t h).2 c' hc').2⟩⟩
    · rw [if_neg hc]
      have hc' : pyWs c = false := by
        cases hb : pyWs c
        · rfl
        · exact absurd hb hc
      refine ⟨fun c' hc'' => ?_, fun t ht =>
        ⟨(ih2 t ht).1, fun c' hcc =>
          ⟨((ih2 t ht).2 c' hcc).1,
           List.mem_cons_of_mem c ((ih2 t ht).2 c' hcc).2⟩⟩⟩
      rcases List.mem_cons.mp hc'' with h | h
      · exact ⟨h ▸ hc', h ▸ List.mem_cons_self c cs⟩
      · exact ⟨(ih1 c' h).1, List.mem_cons_of_mem c (ih1 c' h).2⟩

theorem joinWith_chars (toks : List (List Char)) (c : Char)
    (hc : c ∈ joinWith toks) : (∃ t ∈ toks, c ∈ t) ∨ c = ' ' := by
  induction toks with
  | nil => simp [joinWith] at hc
  | cons t ts ih =>
    cases ts with
    | nil =>
      exact Or.inl ⟨t, List.mem_cons_self t [], hc⟩
    | cons t' ts' =>
      rw [show joinWith (t :: t' :: ts') = t ++ ' ' :: joinWith (t' :: ts')
          from rfl] at hc
      rcases List.mem_append.mp hc with h | h
      · exact Or.inl ⟨t, List.mem_cons_self t _, h⟩
      · rcases List.mem_cons.mp h with h | h
        · exact Or.inr h
        · rcases ih h with ⟨u, hu, hcu⟩ | h
          · exact Or.inl ⟨u, List.mem_cons_of_mem t hu, hcu⟩
          · exact Or.inr h

end GWC

namespace GWC

theorem splitWs_sound (cs : List Char) :
    ∀ t ∈ splitWs cs, t ≠ [] ∧ ∀ c ∈ t, pyWs c = false ∧ c ∈ cs := by
  intro t ht
  rcases splitWsGo_sound cs with ⟨h1, h2⟩
  simp only [splitWs] at ht
  by_cases hcur : (splitWsGo cs).1 = []
  · rw [if_pos hcur] at ht
    exact h2 t ht
  · rw [if_neg hcur] at ht
    rcases List.mem_cons.mp ht with h | h
    · subst h
      exact ⟨hcur, h1⟩
    · exact h2 t h

/-- On text made of lowercase ASCII letters and spaces, `normalize` is just
whitespace splitting: the HTML branch is not taken, the character filter
keeps everything and lowercasing fixes every character. -/
theorem normalize_clean_chars (cs : List Char)
    (h : ∀ c ∈ cs, ('a' ≤ c ∧ c ≤ 'z') ∨ c = ' ') :
    normalize (String.mk cs) = (splitWs cs).map fun t => String.mk t := by
  have hhtml : isHtmlText (String.mk cs) = false := by
    cases hb : isHtmlText (String.mk cs)
    · rfl
    · exfalso
      rw [isHtmlText] at hb
      have hmem : '<' ∈ cs.map Char.toLower := by
        rw [show "<html".toList = '<' :: "html".toList from rfl] at hb
        exact containsSub_head_mem hb
      rw [List.mem_map] at hmem
      obtain ⟨c, hc, hlc⟩ := hmem
      rcases h c hc with ⟨h1, h2⟩ | h2
      · rw [toLower_fix_of_lower_or_space (Or.inl ⟨h1, h2⟩)] at hlc
        subst hlc
        exact absurd h1 (by decide)
      · subst h2
        exact absurd hlc (by decide)
  have hfilter : cs.filter keepChar = cs :=
    List.filter_eq_self.mpr fun c hc => by
      simpa using keepChar_of_lower_or_space (h c hc)
  have hmap : cs.map Char.toLower = cs := by
    rw [List.map_congr_left fun c hc => toLower_fix_of_lower_or_space (h c hc)]
    exact List.map_id cs
  rw [normalize, hhtml]
  simp only [Bool.false_eq_true, if_false, clean_text, String.toList]
  rw [hfilter, hmap]

/-- **C8**: `normalize` is idempotent on already-clean text: for strings of
lowercase ASCII letters and spaces, rejoining the tokens with single spaces
and normalizing again reproduces the same token sequence. -/
theorem normalize_idempotent :
    ∀ s : String, (∀ c ∈ s.toList, ('a' ≤ c ∧ c ≤ 'z') ∨ c = ' ') →
      normalize (spaceJoin (normalize s)) = normalize s := by
  intro s hs
  have h1 : normalize s = (splitWs s.toList).map fun t => String.mk t :=
    normalize_clean_chars s.toList hs
  have hjoin_chars : ∀ c ∈ joinWith (splitWs s.toList),
      ('a' ≤ c ∧ c ≤ 'z') ∨ c = ' ' := by
    intro c hc
    rcases joinWith_chars _ c hc with ⟨t, ht, hct⟩ | h
    · rcases splitWs_sound s.toList t ht with ⟨_, hch⟩
      exact hs c (hch c hct).2
    · exact Or.inr h
  have h2 : spaceJoin (normalize s) =
      String.mk (joinWith (splitWs s.toList)) := by
    rw [h1, spaceJoin, List.map_map]
    congr 1
    congr 1
    exact List.map_id _
  rw [h2, normalize_clean_chars _ hjoin_chars,
    splitWs_joinWith _ (fun t ht =>
      ⟨(splitWs_sound s.toList t ht).1,
       fun c hc => ((splitWs_sound s.toList t ht).2 c hc).1⟩),
    h1]

theorem normalize_idempotent_witness :
    normalize (spaceJoin (normalize "wonderland  rabbit  hole")) =
      normalize "wonderland  rabbit  hole" :=
  normalize_idempotent "wonderland  rabbit  hole" (by decide)

end GWC

namespace GWC

/-- **C3**: `normalize` strips angle-bracket tags (each replaced by one
space) exactly when the text contains the case-insensitive substring
`<html`; afterwards every non-letter non-whitespace character is deleted,
the text is lowercased, and it splits into nonempty all-lowercase-letter
tokens in left-to-right order; the HTML example from the specification
evaluates as stated, and tags are kept as text when `<html` is absent. -/
theorem normalize_spec :
    (∀ text : String, isHtmlText text = true →
      normalize text = clean_text (String.mk (stripTags text.toList))) ∧
    (∀ text : String, isHtmlText text = false →
      normalize text = clean_text text) ∧
    (∀ text : String, ∀ tok ∈ normalize text,
      tok ≠ "" ∧ ∀ c ∈ tok.toList, 'a' ≤ c ∧ c ≤ 'z') ∧
    normalize
      "<html><strong>Title</strong>: Foo</p><p>wonderland wonderland rabbit</p>"
      = ["title", "foo", "wonderland", "wonderland", "rabbit"] ∧
    normalize "<p>abcd</p>" = ["pabcdp"] := by
  refine ⟨fun text h => by simp [normalize, h],
    fun text h => by simp [normalize, h],
    fun text tok htok => ?_, by decide, by decide⟩
  simp only [normalize, clean_text] at htok
  obtain ⟨t, ht, rfl⟩ := List.mem_map.mp htok
  rcases splitWs_sound _ t ht with ⟨hne, hch⟩
  constructor
  · intro hcon
    apply hne
    have := congrArg String.data hcon
    simpa using this
  · intro c hc
    rcases hch c hc with ⟨hws, hmem⟩
    rw [List.mem_map] at hmem
    obtain ⟨c₀, hc₀, rfl⟩ := hmem
    have hkeep : keepChar c₀ = true := by
      have := List.mem_filter.mp hc₀
      simpa using this.2
    rw [keepChar, Bool.or_eq_true] at hkeep
    rcases hkeep with hletter | hws₀
    · exact asciiLetter_toLower_lower hletter
    · rw [pyWs_toLower hws₀] at hws
      exact absurd hws₀ (by simp [hws])

theorem normalize_spec_witness :
    normalize "plain text here" = clean_text "plain text here" ∧
    normalize "<html><p>abcd</p>" =
      clean_text (String.mk (stripTags "<html><p>abcd</p>".toList)) ∧
    (("title" : String) ≠ "" ∧
      ∀ c ∈ ("title" : String).toList, 'a' ≤ c ∧ c ≤ 'z') :=
  ⟨normalize_spec.2.1 "plain text here" (by decide),
   normalize_spec.1 "<html><p>abcd</p>" (by decide),
   normalize_spec.2.2.1
     "<html><strong>Title</strong>: Foo</p><p>wonderland wonderland rabbit</p>"
     "title" (by decide)⟩

end GWC
